import Mathlib

/-!
Verification of the workflow execution engine of `subagent_orchestrator.py`
(COBOL-PoP repository): a shallow embedding of the data model
(`WorkflowStep`, `WorkflowExecution`), the Execution Plan Builder
(`generate_execution_plan`), the Readiness Evaluator (`can_execute_step`),
step dispatch (`execute_step`) and the two Scheduler/Driver loops of
`execute_workflow` (interactive and non-interactive), together with theorems
settling the specification claims.

Timestamps (`datetime.now()`) are embedded as a logical clock: a natural
number threaded through the computation and bumped at every call, so each
recorded timestamp is a distinct tick of a monotone counter.

The Step Executor collaborator is modelled from the spec: the reference
`execute_step` contains a stub that always succeeds (its `except` branch
records a failure), while the spec defines the executor as an external
capability returning success or failure.  The embedding therefore takes the
outcome of each executor call as a parameter `ex : String → Bool` (outcome
per step name); the reference stub is `mockExecutor`, which always returns
`true`, and whose failure branch is the embedded `except` branch.
-/

/-- Embedding of the `WorkflowStep` dataclass: one unit of work with a
dependency list and lifecycle status.  `status` is one of the strings
pending, running, completed, failed, skipped. -/
structure WorkflowStep where
  step : String
  agent : String
  action : String
  description : String
  timeout : Nat
  depends_on : List String
  status : String
  start_time : Option Nat
  end_time : Option Nat
  result : Option String
  error : Option String
  deriving Repr, DecidableEq

/-- Embedding of the `WorkflowExecution` dataclass: execution state of a
workflow, with per-step states and aggregate counters. -/
structure WorkflowExecution where
  workflow_id : String
  name : String
  status : String
  steps : List WorkflowStep
  start_time : Option Nat
  end_time : Option Nat
  total_steps : Nat
  completed_steps : Nat
  failed_steps : Nat
  deriving Repr, DecidableEq

/-- One step specification from the workflow catalog (the YAML shape
`{step, agent, action, description, timeout?, depends_on?}`); optional keys
are `Option`s, matching `step_config.get(...)`. -/
structure StepConfig where
  step : String
  agent : String
  action : String
  description : String
  timeout : Option Nat
  depends_on : Option (List String)
  deriving Repr, DecidableEq

/-- One workflow definition from the catalog: a name plus ordered step
specifications. -/
structure WorkflowDef where
  name : String
  steps : List StepConfig
  deriving Repr, DecidableEq

/-- The workflow catalog `self.workflows`: an ordered association of
workflow identities to definitions. -/
abbrev Catalog := List (String × WorkflowDef)

/-- Instantiation of one `WorkflowStep` from a step spec inside
`generate_execution_plan`: `timeout` defaults to 600, `depends_on` to the
empty list; the dataclass defaults give status pending and all runtime
fields `None`. -/
def mkWorkflowStep (c : StepConfig) : WorkflowStep :=
  { step := c.step
    agent := c.agent
    action := c.action
    description := c.description
    timeout := c.timeout.getD 600
    depends_on := c.depends_on.getD []
    status := "pending"
    start_time := none
    end_time := none
    result := none
    error := none }

/-- Embedding of `SubagentOrchestrator.generate_execution_plan`: raises
`ValueError` (the spec calls this error kind `NotFoundError`) when the
workflow identity is not in the catalog, otherwise builds the
`WorkflowExecution` with all steps instantiated. -/
def generate_execution_plan (workflows : Catalog) (workflow_id : String) :
    Except String WorkflowExecution :=
  match workflows.lookup workflow_id with
  | none => .error ("Workflow " ++ workflow_id ++ " not found")
  | some workflow =>
    let steps := workflow.steps.map mkWorkflowStep
    .ok { workflow_id := workflow_id
          name := workflow.name
          status := "pending"
          steps := steps
          start_time := none
          end_time := none
          total_steps := steps.length
          completed_steps := 0
          failed_steps := 0 }

/-- Embedding of `SubagentOrchestrator.can_execute_step`: a step with no
dependencies is ready; otherwise every dependency name must resolve (first
match by name in `execution.steps`) to a step whose status is completed. -/
def can_execute_step (step : WorkflowStep) (execution : WorkflowExecution) : Bool :=
  if step.depends_on.isEmpty then true
  else step.depends_on.all fun dependency =>
    match execution.steps.find? (fun s => s.step == dependency) with
    | none => false
    | some dependent_step => dependent_step.status == "completed"

/-- Embedding of `SubagentOrchestrator.execute_step`: sets the step running
and stamps `start_time`, then (executor outcome `ok`, see the module
comment) either the success path — status completed, `end_time`, `result`
message, return `true` — or the `except` branch — status failed, `end_time`,
`error`, return `false`. -/
def execute_step (ok : Bool) (step : WorkflowStep) (clk : Nat) :
    WorkflowStep × Nat × Bool :=
  let running := { step with status := "running", start_time := some clk }
  if ok then
    ({ running with
        status := "completed"
        end_time := some (clk + 1)
        result := some ("Successfully completed " ++ step.action ++ " using " ++ step.agent) },
      clk + 2, true)
  else
    ({ running with
        status := "failed"
        end_time := some (clk + 1)
        error := some "step execution failed" },
      clk + 2, false)

/-- The reference Step Executor stub: `execute_step` in the source always
takes the success path. -/
def mockExecutor : String → Bool := fun _ => true

/-- The body shared by both driver loops after a step is selected: run
`execute_step` on the step at index `i`, write the updated step back, and
increment `completed_steps` or `failed_steps` according to the outcome. -/
def dispatchStep (ex : String → Bool) (i : Nat) (s : WorkflowStep)
    (execution : WorkflowExecution) (clk : Nat) : WorkflowExecution × Nat :=
  match execute_step (ex s.step) s clk with
  | (s1, clk1, ok) =>
    ({ execution with
        steps := execution.steps.set i s1
        completed_steps :=
          if ok then execution.completed_steps + 1 else execution.completed_steps
        failed_steps :=
          if ok then execution.failed_steps else execution.failed_steps + 1 },
      clk1)

/-- The step-selection scan of the interactive loop (`for step in
execution.steps: if step.status == "pending" and self.can_execute_step(...)`):
first step, in declaration order, that is pending and ready, together with
its index.  `i` is the index of the head of the remaining list. -/
def findPendingReady (execution : WorkflowExecution) :
    List WorkflowStep → Nat → Option (Nat × WorkflowStep)
  | [], _ => none
  | s :: rest, i =>
    if s.status == "pending" && can_execute_step s execution then some (i, s)
    else findPendingReady execution rest (i + 1)

/-- `next_step` selection over the whole step list. -/
def findNext (execution : WorkflowExecution) : Option (Nat × WorkflowStep) :=
  findPendingReady execution execution.steps 0

/-- The interactive `while` loop of `execute_workflow`, with explicit fuel:
while `completed_steps + failed_steps < total_steps`, select the first
pending ready step and dispatch it; if none exists, break — marking the
execution failed first when pending steps remain (deadlock). -/
def runInteractive (ex : String → Bool) :
    Nat → WorkflowExecution → Nat → WorkflowExecution × Nat
  | 0, execution, clk => (execution, clk)
  | fuel + 1, execution, clk =>
    if execution.completed_steps + execution.failed_steps < execution.total_steps then
      match findNext execution with
      | some (i, s) =>
        runInteractive ex fuel (dispatchStep ex i s execution clk).1
          (dispatchStep ex i s execution clk).2
      | none =>
        if execution.steps.any (fun s => s.status == "pending") then
          ({ execution with status := "failed" }, clk)
        else
          (execution, clk)
    else (execution, clk)

/-- The non-interactive pass of `execute_workflow` (`for step in
execution.steps: if self.can_execute_step(...)`): a single scan in
declaration order, dispatching each step that is ready at its turn; `i` is
the current index and the fuel counts the steps still to visit. -/
def runBatchAux (ex : String → Bool) :
    Nat → Nat → WorkflowExecution → Nat → WorkflowExecution × Nat
  | 0, _, execution, clk => (execution, clk)
  | n + 1, i, execution, clk =>
    match execution.steps[i]? with
    | none => (execution, clk)
    | some s =>
      if can_execute_step s execution then
        runBatchAux ex n (i + 1) (dispatchStep ex i s execution clk).1
          (dispatchStep ex i s execution clk).2
      else
        runBatchAux ex n (i + 1) execution clk

/-- The non-interactive pass over the whole step list. -/
def runBatch (ex : String → Bool) (execution : WorkflowExecution) (clk : Nat) :
    WorkflowExecution × Nat :=
  runBatchAux ex execution.steps.length 0 execution clk

/-- The epilogue of `execute_workflow` (run in both modes): stamp
`end_time`, then set status completed when `failed_steps == 0` and failed
otherwise. -/
def finishExecution (execution : WorkflowExecution) (clk : Nat) :
    WorkflowExecution × Nat :=
  (if execution.failed_steps == 0 then
    { execution with end_time := some clk, status := "completed" }
   else
    { execution with end_time := some clk, status := "failed" },
   clk + 1)

/-- The execution state on entry to the driver loop: status running and
`start_time` stamped. -/
def startedExec (plan : WorkflowExecution) (clk : Nat) : WorkflowExecution :=
  { plan with status := "running", start_time := some clk }

/-- Embedding of `SubagentOrchestrator.execute_workflow`: build the plan,
mark it running with a start timestamp, run the interactive loop (with fuel
`total_steps + 1`, shown sufficient by `runInteractive_fuel_stable`) or the
non-interactive pass, then apply the epilogue. -/
def execute_workflow (workflows : Catalog) (workflow_id : String)
    (interactive : Bool) (ex : String → Bool) (clk : Nat) :
    Except String (WorkflowExecution × Nat) :=
  match generate_execution_plan workflows workflow_id with
  | .error msg => .error msg
  | .ok plan =>
    let started := startedExec plan clk
    let p :=
      if interactive then
        runInteractive ex (started.total_steps + 1) started (clk + 1)
      else
        runBatch ex started (clk + 1)
    .ok (finishExecution p.1 p.2)

/-- The forward order on step statuses asserted by the spec: a status may
stay put; pending may advance to running, completed, failed or skipped;
running may advance to completed or failed; completed, failed and skipped
are terminal. -/
def statusLE (a b : String) : Bool :=
  a == b
    || (a == "pending" &&
        (b == "running" || b == "completed" || b == "failed" || b == "skipped"))
    || (a == "running" && (b == "completed" || b == "failed"))

/-- Default step used with `List.getD` when indexing step lists. -/
def dfltStep : WorkflowStep :=
  { step := "", agent := "", action := "", description := "", timeout := 600
    depends_on := [], status := "pending", start_time := none, end_time := none
    result := none, error := none }

/-- Every `depends_on` name of every step spec names some step spec of the
same workflow (the referential-integrity precondition of the spec). -/
abbrev resolvableCfg (cfgs : List StepConfig) : Prop :=
  ∀ c ∈ cfgs, ∀ d ∈ c.depends_on.getD [], ∃ t ∈ cfgs, t.step = d

/-- `rank` witnesses acyclicity of the dependency graph of a step-spec
list: every dependency edge strictly decreases the rank of the step name.
A finite dependency graph is acyclic exactly when such a ranking exists
(any topological order gives one). -/
abbrev rankedCfg (rank : String → Nat) (cfgs : List StepConfig) : Prop :=
  ∀ c ∈ cfgs, ∀ d ∈ c.depends_on.getD [], rank d < rank c.step

/-- The selection predicate of the interactive scan: pending and ready. -/
def pendingReady (e : WorkflowExecution) (s : WorkflowStep) : Bool :=
  s.status == "pending" && can_execute_step s e

/-- Example step spec: step a, no dependencies. -/
def cfgA : StepConfig :=
  { step := "a", agent := "agent1", action := "act1", description := "step a"
    timeout := none, depends_on := none }

/-- Example step spec: step b depending on a. -/
def cfgB : StepConfig :=
  { step := "b", agent := "agent2", action := "act2", description := "step b"
    timeout := none, depends_on := some ["a"] }

/-- Example step spec: step a depending on the undeclared name x
(Scenario B of the spec). -/
def cfgADangling : StepConfig :=
  { cfgA with depends_on := some ["x"] }

/-- Example step spec: step b with an explicit empty dependency list. -/
def cfgBIndep : StepConfig :=
  { cfgB with depends_on := some [] }

/-- Workflow a then b-depending-on-a (dependencies precede dependents). -/
def wfAB : WorkflowDef := { name := "Wf", steps := [cfgA, cfgB] }

/-- Workflow b-depending-on-a declared before a (dependency afterwards). -/
def wfBA : WorkflowDef := { name := "Wf", steps := [cfgB, cfgA] }

/-- Workflow with a single step whose dependency is undeclared. -/
def wfDangling : WorkflowDef := { name := "Wf", steps := [cfgADangling] }

/-- Workflow of two independent steps a, b. -/
def wfIndep : WorkflowDef := { name := "Wf", steps := [cfgA, cfgBIndep] }

def catalogAB : Catalog := [("wf", wfAB)]

def catalogBA : Catalog := [("wf", wfBA)]

def catalogDangling : Catalog := [("wf", wfDangling)]

def catalogIndep : Catalog := [("wf", wfIndep)]

/-- Spec-modelled executor outcome function that fails step a and succeeds
on every other step. -/
def failAExecutor : String → Bool := fun n => !(n == "a")

/-- The execution plan the Plan Builder produces for `catalogAB`. -/
def planAB : WorkflowExecution :=
  { workflow_id := "wf", name := "Wf", status := "pending"
    steps := [mkWorkflowStep cfgA, mkWorkflowStep cfgB]
    start_time := none, end_time := none
    total_steps := 2, completed_steps := 0, failed_steps := 0 }

/-- The final state of the non-interactive run of `catalogBA` under the
reference executor: step a completes but step b, visited before its
dependency, is left pending while the execution still finishes with status
completed. -/
def batchBAExec : WorkflowExecution :=
  { workflow_id := "wf", name := "Wf", status := "completed"
    steps :=
      [{ step := "b", agent := "agent2", action := "act2", description := "step b"
         timeout := 600, depends_on := ["a"], status := "pending"
         start_time := none, end_time := none, result := none, error := none },
       { step := "a", agent := "agent1", action := "act1", description := "step a"
         timeout := 600, depends_on := [], status := "completed"
         start_time := some 1, end_time := some 2
         result := some "Successfully completed act1 using agent1", error := none }]
    start_time := some 0, end_time := some 3
    total_steps := 2, completed_steps := 1, failed_steps := 0 }

/-- The final state of the run of `catalogAB` (identical in the two modes
under the reference executor: both steps complete). -/
def bothABExec : WorkflowExecution :=
  { workflow_id := "wf", name := "Wf", status := "completed"
    steps :=
      [{ step := "a", agent := "agent1", action := "act1", description := "step a"
         timeout := 600, depends_on := [], status := "completed"
         start_time := some 1, end_time := some 2
         result := some "Successfully completed act1 using agent1", error := none },
       { step := "b", agent := "agent2", action := "act2", description := "step b"
         timeout := 600, depends_on := ["a"], status := "completed"
         start_time := some 3, end_time := some 4
         result := some "Successfully completed act2 using agent2", error := none }]
    start_time := some 0, end_time := some 5
    total_steps := 2, completed_steps := 2, failed_steps := 0 }

theorem execute_step_fst (ok : Bool) (s : WorkflowStep) (clk : Nat) :
    (execute_step ok s clk).1 =
      if ok then
        { s with status := "completed", start_time := some clk, end_time := some (clk + 1)
                 result := some ("Successfully completed " ++ s.action ++ " using " ++ s.agent) }
      else
        { s with status := "failed", start_time := some clk, end_time := some (clk + 1)
                 error := some "step execution failed" } := by
  cases ok <;> rfl

theorem execute_step_clk (ok : Bool) (s : WorkflowStep) (clk : Nat) :
    (execute_step ok s clk).2.1 = clk + 2 := by
  cases ok <;> rfl

theorem execute_step_ret (ok : Bool) (s : WorkflowStep) (clk : Nat) :
    (execute_step ok s clk).2.2 = ok := by
  cases ok <;> rfl

theorem execute_step_status (ok : Bool) (s : WorkflowStep) (clk : Nat) :
    (execute_step ok s clk).1.status = if ok then "completed" else "failed" := by
  cases ok <;> rfl

theorem execute_step_key (ok : Bool) (s : WorkflowStep) (clk : Nat) :
    (execute_step ok s clk).1.step = s.step ∧
      (execute_step ok s clk).1.depends_on = s.depends_on := by
  cases ok <;> exact ⟨rfl, rfl⟩

theorem dispatchStep_eq (ex : String → Bool) (i : Nat) (s : WorkflowStep)
    (e : WorkflowExecution) (clk : Nat) :
    dispatchStep ex i s e clk =
      ({ e with
          steps := e.steps.set i (execute_step (ex s.step) s clk).1
          completed_steps :=
            if ex s.step then e.completed_steps + 1 else e.completed_steps
          failed_steps :=
            if ex s.step then e.failed_steps else e.failed_steps + 1 },
        clk + 2) := by
  unfold dispatchStep
  cases h : ex s.step <;> simp [h, execute_step]

theorem can_execute_step_iff (s : WorkflowStep) (e : WorkflowExecution) :
    can_execute_step s e = true ↔
      ∀ d ∈ s.depends_on,
        ∃ t, e.steps.find? (fun u => u.step == d) = some t ∧ t.status = "completed" := by
  unfold can_execute_step
  by_cases hemp : s.depends_on.isEmpty
  · simp only [hemp, if_true, true_iff]
    intro d hd
    rw [List.isEmpty_iff] at hemp
    simp [hemp] at hd
  · rw [Bool.not_eq_true] at hemp
    simp only [hemp, Bool.false_eq_true, if_false, List.all_eq_true]
    constructor
    · intro h d hd
      have := h d hd
      cases hfind : e.steps.find? (fun u => u.step == d) with
      | none => rw [hfind] at this; simp at this
      | some t =>
        rw [hfind] at this
        simp only [beq_iff_eq] at this
        exact ⟨t, rfl, this⟩
    · intro h d hd
      obtain ⟨t, hfind, hst⟩ := h d hd
      rw [hfind]
      simp [hst]

theorem dispatchStep_total (ex : String → Bool) (i : Nat) (s : WorkflowStep)
    (e : WorkflowExecution) (clk : Nat) :
    (dispatchStep ex i s e clk).1.total_steps = e.total_steps := by
  rw [dispatchStep_eq]

theorem dispatchStep_steps (ex : String → Bool) (i : Nat) (s : WorkflowStep)
    (e : WorkflowExecution) (clk : Nat) :
    (dispatchStep ex i s e clk).1.steps =
      e.steps.set i (execute_step (ex s.step) s clk).1 := by
  rw [dispatchStep_eq]

theorem dispatchStep_counters (ex : String → Bool) (i : Nat) (s : WorkflowStep)
    (e : WorkflowExecution) (clk : Nat) :
    (dispatchStep ex i s e clk).1.completed_steps
        + (dispatchStep ex i s e clk).1.failed_steps
      = e.completed_steps + e.failed_steps + 1 := by
  rw [dispatchStep_eq]
  cases ex s.step <;> simp <;> omega

theorem findPendingReady_cons (e : WorkflowExecution) (s0 : WorkflowStep)
    (rest : List WorkflowStep) (i : Nat) :
    findPendingReady e (s0 :: rest) i =
      if pendingReady e s0 then some (i, s0) else findPendingReady e rest (i + 1) := rfl

theorem findPendingReady_none (e : WorkflowExecution) :
    ∀ (l : List WorkflowStep) (i : Nat),
      findPendingReady e l i = none ↔ ∀ s ∈ l, pendingReady e s = false := by
  intro l
  induction l with
  | nil => intro i; simp [findPendingReady]
  | cons s0 rest ih =>
    intro i
    by_cases hp : pendingReady e s0 = true
    · have : findPendingReady e (s0 :: rest) i = some (i, s0) := by
        rw [findPendingReady_cons, if_pos hp]
      simp only [this]
      constructor
      · intro h; cases h
      · intro h
        have := h s0 (List.mem_cons_self s0 rest)
        rw [hp] at this; cases this
    · rw [Bool.not_eq_true] at hp
      have : findPendingReady e (s0 :: rest) i = findPendingReady e rest (i + 1) := by
        rw [findPendingReady_cons, if_neg (by simp [hp])]
      rw [this, ih (i + 1)]
      constructor
      · intro h s hs
        rcases List.mem_cons.mp hs with rfl | hs
        · exact hp
        · exact h s hs
      · intro h s hs
        exact h s (List.mem_cons_of_mem s0 hs)

theorem findPendingReady_some (e : WorkflowExecution) :
    ∀ (l : List WorkflowStep) (i j : Nat) (s : WorkflowStep),
      findPendingReady e l i = some (j, s) →
      i ≤ j ∧ l[j - i]? = some s ∧ pendingReady e s = true ∧
        ∀ k t, k < j - i → l[k]? = some t → pendingReady e t = false := by
  intro l
  induction l with
  | nil => intro i j s h; cases h
  | cons s0 rest ih =>
    intro i j s h
    by_cases hp : pendingReady e s0 = true
    · have heq : findPendingReady e (s0 :: rest) i = some (i, s0) := by
        rw [findPendingReady_cons, if_pos hp]
      rw [heq] at h
      injection h with h'
      injection h' with h1 h2
      subst h1; subst h2
      refine ⟨Nat.le_refl _, ?_, hp, ?_⟩
      · simp
      · intro k t hk _; omega
    · rw [Bool.not_eq_true] at hp
      have heq : findPendingReady e (s0 :: rest) i = findPendingReady e rest (i + 1) := by
        rw [findPendingReady_cons, if_neg (by simp [hp])]
      rw [heq] at h
      obtain ⟨hij, hget, hpr, hmin⟩ := ih (i + 1) j s h
      refine ⟨by omega, ?_, hpr, ?_⟩
      · have : j - i = (j - (i + 1)) + 1 := by omega
        rw [this]
        simpa using hget
      · intro k t hk hkt
        cases k with
        | zero =>
          simp at hkt
          subst hkt; exact hp
        | succ k' =>
          simp at hkt
          exact hmin k' t (by omega) hkt

theorem findPendingReady_first (e : WorkflowExecution) :
    ∀ (l : List WorkflowStep) (i i0 : Nat) (s : WorkflowStep),
      l[i0]? = some s → pendingReady e s = true →
      (∀ k t, k < i0 → l[k]? = some t → pendingReady e t = false) →
      findPendingReady e l i = some (i + i0, s) := by
  intro l
  induction l with
  | nil => intro i i0 s h; cases i0 <;> cases h
  | cons s0 rest ih =>
    intro i i0 s hget hpr hmin
    cases i0 with
    | zero =>
      simp at hget
      subst hget
      rw [findPendingReady_cons, if_pos hpr]
      simp
    | succ k =>
      have h0 : pendingReady e s0 = false := by
        apply hmin 0 s0 (Nat.succ_pos k)
        simp
      have heq : findPendingReady e (s0 :: rest) i = findPendingReady e rest (i + 1) := by
        rw [findPendingReady_cons, if_neg (by simp [h0])]
      rw [heq]
      simp only [List.getElem?_cons_succ] at hget
      have := ih (i + 1) k s hget hpr ?_
      · rw [this]
        have harith : i + 1 + k = i + (k + 1) := by omega
        rw [harith]
      · intro k' t hk' hkt
        apply hmin (k' + 1) t (by omega)
        simpa using hkt

theorem runInteractive_succ (ex : String → Bool) (fuel : Nat)
    (e : WorkflowExecution) (clk : Nat) :
    runInteractive ex (fuel + 1) e clk =
      if e.completed_steps + e.failed_steps < e.total_steps then
        match findNext e with
        | some (i, s) =>
          runInteractive ex fuel (dispatchStep ex i s e clk).1
            (dispatchStep ex i s e clk).2
        | none =>
          if e.steps.any (fun s => s.status == "pending") then
            ({ e with status := "failed" }, clk)
          else (e, clk)
      else (e, clk) := rfl

theorem runBatchAux_succ (ex : String → Bool) (n i : Nat)
    (e : WorkflowExecution) (clk : Nat) :
    runBatchAux ex (n + 1) i e clk =
      match e.steps[i]? with
      | none => (e, clk)
      | some s =>
        if can_execute_step s e then
          runBatchAux ex n (i + 1) (dispatchStep ex i s e clk).1
            (dispatchStep ex i s e clk).2
        else runBatchAux ex n (i + 1) e clk := rfl

theorem runInteractive_fuel_stable (ex : String → Bool) :
    ∀ (f1 f2 : Nat) (e : WorkflowExecution) (clk : Nat),
      e.total_steps - (e.completed_steps + e.failed_steps) < f1 →
      e.total_steps - (e.completed_steps + e.failed_steps) < f2 →
      runInteractive ex f1 e clk = runInteractive ex f2 e clk := by
  intro f1
  induction f1 with
  | zero => intro f2 e clk h1 _; omega
  | succ m ih =>
    intro f2 e clk h1 h2
    cases f2 with
    | zero => omega
    | succ k =>
      rw [runInteractive_succ, runInteractive_succ]
      by_cases hlt : e.completed_steps + e.failed_steps < e.total_steps
      · rw [if_pos hlt, if_pos hlt]
        cases hn : findNext e with
        | none => simp only [hn]
        | some p =>
          obtain ⟨i, s⟩ := p
          simp only [hn]
          have ht := dispatchStep_total ex i s e clk
          have hc := dispatchStep_counters ex i s e clk
          apply ih
          · rw [ht, hc]; omega
          · rw [ht, hc]; omega
      · rw [if_neg hlt, if_neg hlt]

theorem statusLE_refl (a : String) : statusLE a a = true := by
  simp [statusLE]

theorem statusLE_trans (a b c : String) (h1 : statusLE a b = true)
    (h2 : statusLE b c = true) : statusLE a c = true := by
  simp only [statusLE, Bool.or_eq_true, Bool.and_eq_true, beq_iff_eq] at h1 h2 ⊢
  rcases h1 with (h1 | ⟨ha, hb⟩) | ⟨ha, hb⟩
  · subst h1; exact h2
  · rcases h2 with (h2 | ⟨hb2, _⟩) | ⟨hb2, hc⟩
    · subst h2; left; right; exact ⟨ha, hb⟩
    · subst hb2; rcases hb with ((hb | hb) | hb) | hb <;> simp at hb
    · subst hb2
      left; right
      refine ⟨ha, ?_⟩
      rcases hc with hc | hc <;> simp [hc]
  · rcases h2 with (h2 | ⟨hb2, _⟩) | ⟨hb2, _⟩
    · subst h2; right; exact ⟨ha, hb⟩
    · subst hb2; rcases hb with hb | hb <;> simp at hb
    · subst hb2; rcases hb with hb | hb <;> simp at hb

theorem dispatchStep_statusLE (ex : String → Bool) (i : Nat) (s : WorkflowStep)
    (e : WorkflowExecution) (clk : Nat) (hi : e.steps[i]? = some s)
    (hp : s.status = "pending") (j : Nat) :
    statusLE ((e.steps.getD j dfltStep).status)
      (((dispatchStep ex i s e clk).1.steps.getD j dfltStep).status) = true := by
  rw [dispatchStep_steps]
  by_cases hij : j = i
  · subst hij
    have hlen : j < e.steps.length := by
      rcases List.getElem?_eq_some_iff.mp hi with ⟨h, _⟩; exact h
    rw [List.getD_eq_getElem?_getD, List.getD_eq_getElem?_getD, hi,
      List.getElem?_set_self hlen]
    simp only [Option.getD_some]
    rw [hp, execute_step_status]
    cases ex s.step <;> simp <;> decide
  · rw [List.getD_eq_getElem?_getD, List.getD_eq_getElem?_getD,
      List.getElem?_set_ne (fun h => hij h.symm)]
    exact statusLE_refl _

theorem runInteractive_statusLE (ex : String → Bool) :
    ∀ (fuel : Nat) (e : WorkflowExecution) (clk : Nat) (j : Nat),
      statusLE ((e.steps.getD j dfltStep).status)
        (((runInteractive ex fuel e clk).1.steps.getD j dfltStep).status) = true := by
  intro fuel
  induction fuel with
  | zero => intro e clk j; exact statusLE_refl _
  | succ m ih =>
    intro e clk j
    rw [runInteractive_succ]
    by_cases hlt : e.completed_steps + e.failed_steps < e.total_steps
    · rw [if_pos hlt]
      cases hn : findNext e with
      | none =>
        simp only [hn]
        by_cases hany : e.steps.any (fun s => s.status == "pending") = true
        · rw [if_pos hany]; exact statusLE_refl _
        · rw [if_neg hany]; exact statusLE_refl _
      | some p =>
        obtain ⟨i, s⟩ := p
        simp only [hn]
        obtain ⟨_, hget, hpr, _⟩ := findPendingReady_some e e.steps 0 i s hn
        simp only [Nat.sub_zero] at hget
        have hp : s.status = "pending" := by
          have := hpr
          unfold pendingReady at this
          rw [Bool.and_eq_true, beq_iff_eq] at this
          exact this.1
        exact statusLE_trans _ _ _
          (dispatchStep_statusLE ex i s e clk hget hp j) (ih _ _ j)
    · rw [if_neg hlt]; exact statusLE_refl _

theorem runBatchAux_statusLE (ex : String → Bool) :
    ∀ (n i : Nat) (e : WorkflowExecution) (clk : Nat),
      (∀ k t, i ≤ k → e.steps[k]? = some t → t.status = "pending") →
      ∀ j, statusLE ((e.steps.getD j dfltStep).status)
        (((runBatchAux ex n i e clk).1.steps.getD j dfltStep).status) = true := by
  intro n
  induction n with
  | zero => intro i e clk _ j; exact statusLE_refl _
  | succ m ih =>
    intro i e clk hpend j
    rw [runBatchAux_succ]
    cases hi : e.steps[i]? with
    | none => simp only [hi]; exact statusLE_refl _
    | some s =>
      simp only [hi]
      have hp : s.status = "pending" := hpend i s (Nat.le_refl i) hi
      by_cases hce : can_execute_step s e = true
      · rw [if_pos hce]
        refine statusLE_trans _ _ _ (dispatchStep_statusLE ex i s e clk hi hp j) ?_
        apply ih
        intro k t hk hkt
        rw [dispatchStep_steps] at hkt
        rw [List.getElem?_set_ne (by omega)] at hkt
        exact hpend k t (by omega) hkt
      · rw [if_neg hce]
        apply ih
        intro k t hk hkt
        exact hpend k t (by omega) hkt

theorem finishExecution_fst (e : WorkflowExecution) (clk : Nat) :
    (finishExecution e clk).1 =
      { e with end_time := some clk
               status := if e.failed_steps == 0 then "completed" else "failed" } := by
  unfold finishExecution
  by_cases h : (e.failed_steps == 0) = true
  · rw [if_pos h, if_pos h]
  · rw [if_neg h, if_neg h]

theorem execute_workflow_eq (workflows : Catalog) (workflow_id : String)
    (interactive : Bool) (ex : String → Bool) (clk : Nat) :
    execute_workflow workflows workflow_id interactive ex clk =
      match generate_execution_plan workflows workflow_id with
      | .error msg => .error msg
      | .ok plan =>
        .ok (finishExecution
          (if interactive then
            runInteractive ex (plan.total_steps + 1) (startedExec plan clk) (clk + 1)
           else
            runBatch ex (startedExec plan clk) (clk + 1)).1
          (if interactive then
            runInteractive ex (plan.total_steps + 1) (startedExec plan clk) (clk + 1)
           else
            runBatch ex (startedExec plan clk) (clk + 1)).2) := by
  unfold execute_workflow
  cases generate_execution_plan workflows workflow_id with
  | error msg => rfl
  | ok plan => rfl

/-- Claim C4: the readiness check accepts a step with empty `depends_on`
unconditionally, and otherwise accepts exactly when every dependency name
resolves (by first match in the execution) to a step whose status is
completed; an unresolvable name yields not-ready rather than an error. -/
theorem c4_readiness_check (s : WorkflowStep) (e : WorkflowExecution) :
    (s.depends_on = [] → can_execute_step s e = true) ∧
      (can_execute_step s e = true ↔
        ∀ d ∈ s.depends_on,
          ∃ t, e.steps.find? (fun u => u.step == d) = some t ∧
            t.status = "completed") := by
  constructor
  · intro h
    rw [can_execute_step_iff]
    intro d hd
    rw [h] at hd
    cases hd
  · exact can_execute_step_iff s e

/-- Witness for C4 at a concrete step and execution. -/
theorem c4_readiness_check_witness :
    can_execute_step dfltStep planAB = true ∧
      (can_execute_step (mkWorkflowStep cfgB) planAB = true ↔
        ∀ d ∈ (mkWorkflowStep cfgB).depends_on,
          ∃ t, planAB.steps.find? (fun u => u.step == d) = some t ∧
            t.status = "completed") :=
  ⟨(c4_readiness_check dfltStep planAB).1 rfl,
   (c4_readiness_check (mkWorkflowStep cfgB) planAB).2⟩

/-- Claim C6: for a workflow identity present in the catalog, plan
generation returns a WorkflowExecution with `total_steps` equal to the
number of step specs, zero counters, status pending, and every step
pending with null runtime fields, `timeout` defaulted to 600 and
`depends_on` defaulted to the empty list. -/
theorem c6_plan_fields (workflows : Catalog) (workflow_id : String)
    (wf : WorkflowDef) (h : workflows.lookup workflow_id = some wf) :
    ∃ e, generate_execution_plan workflows workflow_id = .ok e ∧
      e.total_steps = wf.steps.length ∧ e.completed_steps = 0 ∧
      e.failed_steps = 0 ∧ e.status = "pending" ∧
      ∀ i, i < wf.steps.length →
        ∃ c s, wf.steps[i]? = some c ∧ e.steps[i]? = some s ∧
          s.step = c.step ∧ s.status = "pending" ∧ s.start_time = none ∧
          s.end_time = none ∧ s.result = none ∧ s.error = none ∧
          s.timeout = c.timeout.getD 600 ∧
          s.depends_on = c.depends_on.getD [] := by
  unfold generate_execution_plan
  rw [h]
  refine ⟨_, rfl, by simp, rfl, rfl, rfl, ?_⟩
  intro i hi
  have hc : wf.steps[i]? = some wf.steps[i] := List.getElem?_eq_getElem hi
  refine ⟨wf.steps[i], mkWorkflowStep wf.steps[i], hc, ?_,
    rfl, rfl, rfl, rfl, rfl, rfl, rfl, rfl⟩
  rw [List.getElem?_map, hc]
  rfl

/-- Witness for C6 on the concrete catalog with steps a, b. -/
theorem c6_plan_fields_witness :
    catalogAB.lookup "wf" = some wfAB ∧
      (∃ e, generate_execution_plan catalogAB "wf" = .ok e ∧
        e.total_steps = wfAB.steps.length ∧ e.completed_steps = 0 ∧
        e.failed_steps = 0 ∧ e.status = "pending" ∧
        ∀ i, i < wfAB.steps.length →
          ∃ c s, wfAB.steps[i]? = some c ∧ e.steps[i]? = some s ∧
            s.step = c.step ∧ s.status = "pending" ∧ s.start_time = none ∧
            s.end_time = none ∧ s.result = none ∧ s.error = none ∧
            s.timeout = c.timeout.getD 600 ∧
            s.depends_on = c.depends_on.getD []) :=
  ⟨rfl, c6_plan_fields catalogAB "wf" wfAB rfl⟩

/-- Claim C7: plan generation errors exactly when the workflow identity is
absent from the catalog; when present it succeeds and is fully determined
by the definition (no validation of dependencies, no side effects). -/
theorem c7_plan_error_iff_absent (workflows : Catalog) (workflow_id : String) :
    ((∃ msg, generate_execution_plan workflows workflow_id = .error msg) ↔
      workflows.lookup workflow_id = none) ∧
    ∀ wf, workflows.lookup workflow_id = some wf →
      generate_execution_plan workflows workflow_id =
        .ok { workflow_id := workflow_id, name := wf.name, status := "pending"
              steps := wf.steps.map mkWorkflowStep
              start_time := none, end_time := none
              total_steps := (wf.steps.map mkWorkflowStep).length
              completed_steps := 0, failed_steps := 0 } := by
  constructor
  · unfold generate_execution_plan
    cases h : workflows.lookup workflow_id with
    | none => simp
    | some wf => simp
  · intro wf h
    unfold generate_execution_plan
    rw [h]

/-- Witness for C7 on the dangling-dependency catalog: the workflow is
found and plan generation succeeds despite the unresolvable dependency. -/
theorem c7_plan_error_iff_absent_witness :
    catalogDangling.lookup "wf" = some wfDangling ∧
      generate_execution_plan catalogDangling "wf" =
        .ok { workflow_id := "wf", name := wfDangling.name, status := "pending"
              steps := wfDangling.steps.map mkWorkflowStep
              start_time := none, end_time := none
              total_steps := (wfDangling.steps.map mkWorkflowStep).length
              completed_steps := 0, failed_steps := 0 } :=
  ⟨rfl, (c7_plan_error_iff_absent catalogDangling "wf").2 wfDangling rfl⟩

/-- Claim C1 (code behavior at the failing input): on the workflow with the
single step a depending on the undeclared name x, the interactive run does
leave a pending with zero completed steps, but the final execution status
is completed, not failed: the deadlock branch sets status failed inside the
loop, and the epilogue then overwrites it with completed because
`failed_steps == 0`. -/
theorem c1_deadlock_status_overwritten :
    (execute_workflow catalogDangling "wf" true mockExecutor 0).map
        (fun p => (p.1.status, p.1.steps.map (fun s => s.status),
          p.1.completed_steps, p.1.failed_steps))
      = .ok ("completed", ["pending"], 0, 0) := by
  rfl

/-- Claim C5: on workflow [a, b depends-on a] with the executor failing a
(spec-modelled outcome injection), the run ends with a failed, b pending,
overall status failed, one failed and zero completed steps; and on two
independent steps with a failing, b is still dispatched and completes. -/
theorem c5_failure_blocks_dependents :
    (execute_workflow catalogAB "wf" true failAExecutor 0).map
        (fun p => (p.1.status, p.1.steps.map (fun s => s.status),
          p.1.completed_steps, p.1.failed_steps))
      = .ok ("failed", ["failed", "pending"], 0, 1) ∧
    (execute_workflow catalogIndep "wf" true failAExecutor 0).map
        (fun p => (p.1.status, p.1.steps.map (fun s => s.status),
          p.1.completed_steps, p.1.failed_steps))
      = .ok ("failed", ["failed", "completed"], 1, 1) := by
  exact ⟨rfl, rfl⟩

/-- Claim C10: a non-interactive run ends with status completed exactly
when `failed_steps = 0` (and otherwise failed), regardless of steps left
pending by the single linear pass. -/
theorem c10_batch_status_iff_no_failures (workflows : Catalog)
    (workflow_id : String) (ex : String → Bool) (clk : Nat)
    (e : WorkflowExecution) (cf : Nat)
    (h : execute_workflow workflows workflow_id false ex clk = .ok (e, cf)) :
    (e.status = "completed" ↔ e.failed_steps = 0) ∧
      (e.status = "completed" ∨ e.status = "failed") := by
  rw [execute_workflow_eq] at h
  cases hplan : generate_execution_plan workflows workflow_id with
  | error msg => rw [hplan] at h; cases h
  | ok plan =>
    rw [hplan] at h
    simp only [Bool.false_eq_true, if_false] at h
    injection h with h'
    have he : (finishExecution
        (runBatch ex (startedExec plan clk) (clk + 1)).1
        (runBatch ex (startedExec plan clk) (clk + 1)).2).1 = e :=
      congrArg Prod.fst h'
    rw [← he, finishExecution_fst]
    by_cases hf :
        ((runBatch ex (startedExec plan clk) (clk + 1)).1.failed_steps == 0) = true
    · rw [if_pos hf]
      rw [beq_iff_eq] at hf
      simp [hf]
    · rw [if_neg hf]
      rw [beq_iff_eq] at hf
      constructor
      · constructor
        · intro hc; simp at hc
        · intro hc; exact absurd hc hf
      · right; rfl

/-- Witness for C10: the non-interactive run of the badly-ordered workflow
[b depends-on a, a] leaves b pending yet ends with status completed. -/
theorem c10_batch_status_iff_no_failures_witness :
    (batchBAExec.status = "completed" ↔ batchBAExec.failed_steps = 0) ∧
      (batchBAExec.status = "completed" ∨ batchBAExec.status = "failed") :=
  c10_batch_status_iff_no_failures catalogBA "wf" mockExecutor 0
    batchBAExec 4 (by rfl)

/-- Claim C9: the step dispatched by the interactive loop is always the
first step in declaration order that is pending and accepted by the
readiness check; and the loop is deterministic — its result does not
depend on the fuel bound once the bound exceeds the remaining work, so two
runs of the same workflow with identical executor outcomes coincide. -/
theorem c9_first_ready_selection :
    (∀ (e : WorkflowExecution) (i : Nat) (s : WorkflowStep),
      findNext e = some (i, s) →
        e.steps[i]? = some s ∧ s.status = "pending" ∧
          can_execute_step s e = true ∧
          ∀ k t, k < i → e.steps[k]? = some t →
            ¬(t.status = "pending" ∧ can_execute_step t e = true)) ∧
    ∀ (ex : String → Bool) (f1 f2 : Nat) (e : WorkflowExecution) (clk : Nat),
      e.total_steps - (e.completed_steps + e.failed_steps) < f1 →
      e.total_steps - (e.completed_steps + e.failed_steps) < f2 →
      runInteractive ex f1 e clk = runInteractive ex f2 e clk := by
  constructor
  · intro e i s h
    obtain ⟨_, hget, hpr, hmin⟩ := findPendingReady_some e e.steps 0 i s h
    simp only [Nat.sub_zero] at hget hmin
    unfold pendingReady at hpr
    rw [Bool.and_eq_true, beq_iff_eq] at hpr
    refine ⟨hget, hpr.1, hpr.2, ?_⟩
    rintro k t hk hkt ⟨ht1, ht2⟩
    have hfalse := hmin k t hk hkt
    unfold pendingReady at hfalse
    rw [ht2] at hfalse
    simp [ht1] at hfalse
  · exact fun ex => runInteractive_fuel_stable ex

/-- Witness for C9 on the plan of [a, b depends-on a]: a is selected first,
and two fuel bounds beyond the remaining work give the same run. -/
theorem c9_first_ready_selection_witness :
    planAB.steps[0]? = some (mkWorkflowStep cfgA) ∧
      runInteractive mockExecutor 3 planAB 0 =
        runInteractive mockExecutor 4 planAB 0 :=
  ⟨(c9_first_ready_selection.1 planAB 0 (mkWorkflowStep cfgA) rfl).1,
   c9_first_ready_selection.2 mockExecutor 3 4 planAB 0 (by decide) (by decide)⟩

theorem countP_set_balance {α : Type} (p : α → Bool) :
    ∀ (l : List α) (i : Nat) (x y : α), l[i]? = some y →
      (l.set i x).countP p + (if p y then 1 else 0)
        = l.countP p + (if p x then 1 else 0) := by
  intro l
  induction l with
  | nil => intro i x y h; cases h
  | cons a rest ih =>
    intro i x y h
    cases i with
    | zero =>
      simp only [List.getElem?_cons_zero, Option.some.injEq] at h
      subst h
      simp only [List.set_cons_zero, List.countP_cons]
      omega
    | succ i1 =>
      simp only [List.getElem?_cons_succ] at h
      simp only [List.set_cons_succ, List.countP_cons]
      have := ih i1 x y h
      omega

theorem exists_rank_min {α : Type} (f : α → Nat) :
    ∀ (l : List α), l ≠ [] → ∃ a ∈ l, ∀ b ∈ l, f a ≤ f b := by
  intro l
  induction l with
  | nil => intro h; exact absurd rfl h
  | cons a rest ih =>
    intro _
    by_cases hrest : rest = []
    · subst hrest
      refine ⟨a, List.mem_cons_self a [], ?_⟩
      intro b hb
      rcases List.mem_cons.mp hb with rfl | hb
      · exact Nat.le_refl _
      · cases hb
    · obtain ⟨m, hm, hmin⟩ := ih hrest
      by_cases hle : f a ≤ f m
      · refine ⟨a, List.mem_cons_self a rest, ?_⟩
        intro b hb
        rcases List.mem_cons.mp hb with rfl | hb
        · exact Nat.le_refl _
        · exact Nat.le_trans hle (hmin b hb)
      · refine ⟨m, List.mem_cons_of_mem a hm, ?_⟩
        intro b hb
        rcases List.mem_cons.mp hb with rfl | hb
        · omega
        · exact hmin b hb

theorem dispatchStep_keyMap (ex : String → Bool) (i : Nat) (s : WorkflowStep)
    (e : WorkflowExecution) (clk : Nat) (hi : e.steps[i]? = some s) :
    (dispatchStep ex i s e clk).1.steps.map (fun t => (t.step, t.depends_on))
      = e.steps.map (fun t => (t.step, t.depends_on)) := by
  rw [dispatchStep_steps, List.map_set]
  apply List.ext_getElem?
  intro n
  by_cases hn : n = i
  · subst hn
    have hlen : n < e.steps.length := by
      rcases List.getElem?_eq_some_iff.mp hi with ⟨h, _⟩; exact h
    rw [List.getElem?_set_self (by simpa using hlen), List.getElem?_map, hi]
    obtain ⟨h1, h2⟩ := execute_step_key (ex s.step) s clk
    rw [h1, h2]
    rfl
  · rw [List.getElem?_set_ne (fun h => hn h.symm)]

theorem resolvable_of_keyMap {l1 l2 : List WorkflowStep}
    (h : l1.map (fun t => (t.step, t.depends_on))
        = l2.map (fun t => (t.step, t.depends_on)))
    (hres : ∀ s ∈ l2, ∀ d ∈ s.depends_on, ∃ t ∈ l2, t.step = d) :
    ∀ s ∈ l1, ∀ d ∈ s.depends_on, ∃ t ∈ l1, t.step = d := by
  intro s hs d hd
  have hkey : (s.step, s.depends_on) ∈ l2.map (fun t => (t.step, t.depends_on)) := by
    rw [← h]
    exact List.mem_map_of_mem _ hs
  obtain ⟨s2, hs2, hk2⟩ := List.mem_map.mp hkey
  have hdeps : s2.depends_on = s.depends_on := congrArg Prod.snd hk2
  obtain ⟨t2, ht2, htn⟩ := hres s2 hs2 d (by rw [hdeps]; exact hd)
  have hkey2 : (t2.step, t2.depends_on) ∈ l1.map (fun t => (t.step, t.depends_on)) := by
    rw [h]
    exact List.mem_map_of_mem _ ht2
  obtain ⟨t1, ht1, hk1⟩ := List.mem_map.mp hkey2
  refine ⟨t1, ht1, ?_⟩
  have : t1.step = t2.step := congrArg Prod.fst hk1
  rw [this, htn]

theorem ranked_of_keyMap (rank : String → Nat) {l1 l2 : List WorkflowStep}
    (h : l1.map (fun t => (t.step, t.depends_on))
        = l2.map (fun t => (t.step, t.depends_on)))
    (hrank : ∀ s ∈ l2, ∀ d ∈ s.depends_on, rank d < rank s.step) :
    ∀ s ∈ l1, ∀ d ∈ s.depends_on, rank d < rank s.step := by
  intro s hs d hd
  have hkey : (s.step, s.depends_on) ∈ l2.map (fun t => (t.step, t.depends_on)) := by
    rw [← h]
    exact List.mem_map_of_mem _ hs
  obtain ⟨s2, hs2, hk2⟩ := List.mem_map.mp hkey
  have hdeps : s2.depends_on = s.depends_on := congrArg Prod.snd hk2
  have hname : s2.step = s.step := congrArg Prod.fst hk2
  have := hrank s2 hs2 d (by rw [hdeps]; exact hd)
  rwa [hname] at this

theorem ready_exists (e : WorkflowExecution) (rank : String → Nat)
    (hres : ∀ s ∈ e.steps, ∀ d ∈ s.depends_on, ∃ t ∈ e.steps, t.step = d)
    (hrank : ∀ s ∈ e.steps, ∀ d ∈ s.depends_on, rank d < rank s.step)
    (hpc : ∀ s ∈ e.steps, s.status = "pending" ∨ s.status = "completed")
    (hpend : ∃ s ∈ e.steps, s.status = "pending") :
    ∃ s ∈ e.steps, pendingReady e s = true := by
  obtain ⟨sp, hspmem, hsp⟩ := hpend
  have hspP : sp ∈ e.steps.filter (fun s => s.status == "pending") :=
    List.mem_filter.mpr ⟨hspmem, by rw [hsp]; rfl⟩
  obtain ⟨s0, hs0P, hmin⟩ :=
    exists_rank_min (fun s => rank s.step)
      (e.steps.filter (fun s => s.status == "pending")) (List.ne_nil_of_mem hspP)
  obtain ⟨hs0mem, hs0p⟩ := List.mem_filter.mp hs0P
  rw [beq_iff_eq] at hs0p
  refine ⟨s0, hs0mem, ?_⟩
  unfold pendingReady
  rw [Bool.and_eq_true, beq_iff_eq]
  refine ⟨hs0p, ?_⟩
  rw [can_execute_step_iff]
  intro d hd
  obtain ⟨t, htmem, htname⟩ := hres s0 hs0mem d hd
  have hsome : (e.steps.find? (fun x => x.step == d)).isSome := by
    rw [List.find?_isSome]
    exact ⟨t, htmem, by simp [htname]⟩
  obtain ⟨u, hu⟩ := Option.isSome_iff_exists.mp hsome
  have hud : u.step = d := by
    have := List.find?_some hu
    rwa [beq_iff_eq] at this
  have humem : u ∈ e.steps := List.mem_of_find?_eq_some hu
  refine ⟨u, hu, ?_⟩
  rcases hpc u humem with hp | hc
  · exfalso
    have huP : u ∈ e.steps.filter (fun s => s.status == "pending") :=
      List.mem_filter.mpr ⟨humem, by rw [hp]; rfl⟩
    have h1 := hmin u huP
    have h2 : rank u.step < rank s0.step := by
      rw [hud]
      exact hrank s0 hs0mem d hd
    omega
  · exact hc

theorem runInteractive_completes (ex : String → Bool) (rank : String → Nat)
    (hex : ∀ n, ex n = true) :
    ∀ (fuel : Nat) (e : WorkflowExecution) (clk : Nat),
      (∀ s ∈ e.steps, ∀ d ∈ s.depends_on, ∃ t ∈ e.steps, t.step = d) →
      (∀ s ∈ e.steps, ∀ d ∈ s.depends_on, rank d < rank s.step) →
      (∀ s ∈ e.steps, s.status = "pending" ∨ s.status = "completed") →
      (e.completed_steps + e.failed_steps +
        e.steps.countP (fun s => s.status == "pending") = e.total_steps) →
      (e.total_steps - (e.completed_steps + e.failed_steps) < fuel) →
      ((runInteractive ex fuel e clk).1.completed_steps
          + (runInteractive ex fuel e clk).1.failed_steps
        = (runInteractive ex fuel e clk).1.total_steps) ∧
      (∀ s ∈ (runInteractive ex fuel e clk).1.steps,
        s.status = "completed" ∨ s.status = "failed") := by
  intro fuel
  induction fuel with
  | zero => intro e clk _ _ _ _ hf; exact absurd hf (by omega)
  | succ m ih =>
    intro e clk hres hrank hpc hcount hfuel
    rw [runInteractive_succ]
    by_cases hlt : e.completed_steps + e.failed_steps < e.total_steps
    · rw [if_pos hlt]
      have hcpos : 0 < e.steps.countP (fun s => s.status == "pending") := by omega
      have hpend : ∃ s ∈ e.steps, s.status = "pending" := by
        obtain ⟨s, hs, hp⟩ := List.countP_pos_iff.mp hcpos
        exact ⟨s, hs, by rwa [beq_iff_eq] at hp⟩
      obtain ⟨sr, hsrmem, hsrready⟩ := ready_exists e rank hres hrank hpc hpend
      cases hn : findNext e with
      | none =>
        exfalso
        have hall := (findPendingReady_none e e.steps 0).mp hn
        have hbad := hall sr hsrmem
        rw [hsrready] at hbad
        cases hbad
      | some p =>
        obtain ⟨i, s⟩ := p
        simp only [hn]
        obtain ⟨_, hget, hpr, _⟩ := findPendingReady_some e e.steps 0 i s hn
        simp only [Nat.sub_zero] at hget
        have hsp : s.status = "pending" := by
          unfold pendingReady at hpr
          rw [Bool.and_eq_true, beq_iff_eq] at hpr
          exact hpr.1
        have hkey := dispatchStep_keyMap ex i s e clk hget
        have hok : ex s.step = true := hex s.step
        have hs1status : (execute_step (ex s.step) s clk).1.status = "completed" := by
          rw [execute_step_status, hok, if_pos rfl]
        have h1 := dispatchStep_counters ex i s e clk
        have h2 := dispatchStep_total ex i s e clk
        have h3 := dispatchStep_steps ex i s e clk
        have hbal := countP_set_balance (fun t => t.status == "pending") e.steps i
          (execute_step (ex s.step) s clk).1 s hget
        simp only [hsp, hs1status] at hbal
        simp only [show (("pending" : String) == "pending") = true from rfl,
          show (("completed" : String) == "pending") = false from rfl,
          Bool.false_eq_true, if_true, if_false] at hbal
        apply ih
        · exact resolvable_of_keyMap hkey hres
        · exact ranked_of_keyMap rank hkey hrank
        · intro t ht
          rw [h3] at ht
          rcases List.mem_or_eq_of_mem_set ht with htmem | rfl
          · exact hpc t htmem
          · right; exact hs1status
        · rw [h3]
          omega
        · omega
    · rw [if_neg hlt]
      constructor
      · show e.completed_steps + e.failed_steps = e.total_steps
        omega
      · intro s hs
        have hs' : s ∈ e.steps := hs
        have hcz : e.steps.countP (fun t => t.status == "pending") = 0 := by omega
        have hnp := List.countP_eq_zero.mp hcz s hs'
        rcases hpc s hs with hp | hc
        · exact absurd (by rw [hp]; rfl) hnp
        · left; exact hc

theorem finishExecution_keeps (e : WorkflowExecution) (clk : Nat) :
    (finishExecution e clk).1.completed_steps = e.completed_steps ∧
    (finishExecution e clk).1.failed_steps = e.failed_steps ∧
    (finishExecution e clk).1.total_steps = e.total_steps ∧
    (finishExecution e clk).1.steps = e.steps := by
  unfold finishExecution
  by_cases h : (e.failed_steps == 0) = true
  · rw [if_pos h]; exact ⟨rfl, rfl, rfl, rfl⟩
  · rw [if_neg h]; exact ⟨rfl, rfl, rfl, rfl⟩

theorem execute_workflow_interactive_ok (workflows : Catalog)
    (workflow_id : String) (ex : String → Bool) (clk : Nat)
    (plan : WorkflowExecution)
    (h : generate_execution_plan workflows workflow_id = .ok plan) :
    execute_workflow workflows workflow_id true ex clk =
      .ok (finishExecution
        (runInteractive ex (plan.total_steps + 1) (startedExec plan clk) (clk + 1)).1
        (runInteractive ex (plan.total_steps + 1) (startedExec plan clk) (clk + 1)).2) := by
  rw [execute_workflow_eq, h]
  rfl

theorem execute_workflow_batch_ok (workflows : Catalog)
    (workflow_id : String) (ex : String → Bool) (clk : Nat)
    (plan : WorkflowExecution)
    (h : generate_execution_plan workflows workflow_id = .ok plan) :
    execute_workflow workflows workflow_id false ex clk =
      .ok (finishExecution
        (runBatch ex (startedExec plan clk) (clk + 1)).1
        (runBatch ex (startedExec plan clk) (clk + 1)).2) := by
  rw [execute_workflow_eq, h]
  rfl

theorem startedExec_fields (plan : WorkflowExecution) (clk : Nat) :
    (startedExec plan clk).steps = plan.steps ∧
    (startedExec plan clk).completed_steps = plan.completed_steps ∧
    (startedExec plan clk).failed_steps = plan.failed_steps ∧
    (startedExec plan clk).total_steps = plan.total_steps :=
  ⟨rfl, rfl, rfl, rfl⟩

theorem interactive_ok_completes (workflows : Catalog) (workflow_id : String)
    (clk : Nat) (plan : WorkflowExecution) (rank : String → Nat)
    (hplan : generate_execution_plan workflows workflow_id = .ok plan)
    (hres : ∀ s ∈ plan.steps, ∀ d ∈ s.depends_on, ∃ t ∈ plan.steps, t.step = d)
    (hrank : ∀ s ∈ plan.steps, ∀ d ∈ s.depends_on, rank d < rank s.step)
    (hpend : ∀ s ∈ plan.steps, s.status = "pending")
    (hc0 : plan.completed_steps = 0) (hf0 : plan.failed_steps = 0)
    (htot : plan.total_steps = plan.steps.length) :
    ∀ e cf,
      execute_workflow workflows workflow_id true mockExecutor clk = .ok (e, cf) →
      e.completed_steps + e.failed_steps = e.total_steps ∧
      ∀ s ∈ e.steps, s.status = "completed" ∨ s.status = "failed" := by
  intro e cf heq
  rw [execute_workflow_interactive_ok workflows workflow_id mockExecutor clk
    plan hplan] at heq
  injection heq with heq'
  obtain ⟨f1, f2, f3, f4⟩ := startedExec_fields plan clk
  have hmain := runInteractive_completes mockExecutor rank (fun _ => rfl)
    (plan.total_steps + 1) (startedExec plan clk) (clk + 1)
    (by rw [f1]; exact hres) (by rw [f1]; exact hrank)
    (by rw [f1]; intro s hs; left; exact hpend s hs)
    (by
      rw [f1, f2, f3, f4, hc0, hf0, htot]
      have hcp : plan.steps.countP (fun s => s.status == "pending")
          = plan.steps.length :=
        List.countP_eq_length.mpr (by
          intro s hsm
          rw [hpend s hsm]
          rfl)
      omega)
    (by rw [f2, f3, f4]; omega)
  obtain ⟨hterm, hsteps⟩ := hmain
  obtain ⟨k1, k2, k3, k4⟩ := finishExecution_keeps
    (runInteractive mockExecutor (plan.total_steps + 1)
      (startedExec plan clk) (clk + 1)).1
    (runInteractive mockExecutor (plan.total_steps + 1)
      (startedExec plan clk) (clk + 1)).2
  have he : (finishExecution
      (runInteractive mockExecutor (plan.total_steps + 1)
        (startedExec plan clk) (clk + 1)).1
      (runInteractive mockExecutor (plan.total_steps + 1)
        (startedExec plan clk) (clk + 1)).2).1 = e :=
    congrArg Prod.fst heq'
  constructor
  · rw [← he, k1, k2, k3]
    exact hterm
  · intro s hs
    rw [← he, k4] at hs
    exact hsteps s hs

/-- Claim C3: for every catalogued workflow whose dependency graph is
acyclic (witnessed by a rank function strictly decreasing along dependency
edges) and whose every dependency resolves to a declared step, the
interactive scheduler of the reference (whose executor stub always
succeeds) terminates — the run produces a result, that result satisfies
`completed_steps + failed_steps = total_steps` with every step terminal,
and the loop is stable in the fuel bound once it exceeds the remaining
work. -/
theorem c3_acyclic_resolvable_terminates (workflows : Catalog)
    (workflow_id : String) (wf : WorkflowDef) (clk : Nat)
    (hwf : workflows.lookup workflow_id = some wf)
    (hres : resolvableCfg wf.steps)
    (hrank : ∃ rank, rankedCfg rank wf.steps) :
    (∀ e cf,
      execute_workflow workflows workflow_id true mockExecutor clk = .ok (e, cf) →
      e.completed_steps + e.failed_steps = e.total_steps ∧
      ∀ s ∈ e.steps, s.status = "completed" ∨ s.status = "failed") ∧
    (execute_workflow workflows workflow_id true mockExecutor clk).isOk = true ∧
    (∀ (f1 f2 : Nat) (e0 : WorkflowExecution) (c0 : Nat),
      e0.total_steps - (e0.completed_steps + e0.failed_steps) < f1 →
      e0.total_steps - (e0.completed_steps + e0.failed_steps) < f2 →
      runInteractive mockExecutor f1 e0 c0 = runInteractive mockExecutor f2 e0 c0) := by
  obtain ⟨rank, hrk⟩ := hrank
  have hplan : generate_execution_plan workflows workflow_id =
      .ok { workflow_id := workflow_id, name := wf.name, status := "pending"
            steps := wf.steps.map mkWorkflowStep
            start_time := none, end_time := none
            total_steps := (wf.steps.map mkWorkflowStep).length
            completed_steps := 0, failed_steps := 0 } := by
    unfold generate_execution_plan
    rw [hwf]
  refine ⟨?_, ?_, ?_⟩
  · apply interactive_ok_completes workflows workflow_id clk _ rank hplan
    · intro s hs d hd
      have hs' : s ∈ wf.steps.map mkWorkflowStep := hs
      obtain ⟨c, hc, rfl⟩ := List.mem_map.mp hs'
      obtain ⟨t, ht, htn⟩ := hres c hc d hd
      exact ⟨mkWorkflowStep t, List.mem_map_of_mem _ ht, htn⟩
    · intro s hs d hd
      have hs' : s ∈ wf.steps.map mkWorkflowStep := hs
      obtain ⟨c, hc, rfl⟩ := List.mem_map.mp hs'
      exact hrk c hc d hd
    · intro s hs
      have hs' : s ∈ wf.steps.map mkWorkflowStep := hs
      obtain ⟨c, _, rfl⟩ := List.mem_map.mp hs'
      rfl
    · rfl
    · rfl
    · show (wf.steps.map mkWorkflowStep).length = (wf.steps.map mkWorkflowStep).length
      rfl
  · rw [execute_workflow_interactive_ok workflows workflow_id mockExecutor clk
      _ hplan]
    rfl
  · exact fun f1 f2 e0 c0 => runInteractive_fuel_stable mockExecutor f1 f2 e0 c0

/-- Witness for C3 on the workflow [a, b depends-on a]: resolvable, ranked
by a at 0 and b at 1, and the interactive run yields a result. -/
theorem c3_acyclic_resolvable_terminates_witness :
    (execute_workflow catalogAB "wf" true mockExecutor 0).isOk = true :=
  (c3_acyclic_resolvable_terminates catalogAB "wf" wfAB 0 rfl (by decide)
    ⟨fun n => if n = "b" then 1 else 0, by decide⟩).2.1

/-- Claim C8: per-step statuses only move forward along pending → running →
{completed, failed}, skipped is reachable only from pending, and terminal
statuses never change: both driver loops are monotone for the forward
order `statusLE` (the batch pass from any state whose unvisited steps are
pending), a dispatched step ends completed or failed, and `statusLE` makes
completed, failed and skipped absorbing with skipped below only pending. -/
theorem c8_status_transitions_forward :
    (∀ (ex : String → Bool) (fuel : Nat) (e : WorkflowExecution) (clk j : Nat),
      statusLE ((e.steps.getD j dfltStep).status)
        (((runInteractive ex fuel e clk).1.steps.getD j dfltStep).status) = true) ∧
    (∀ (ex : String → Bool) (n i : Nat) (e : WorkflowExecution) (clk : Nat),
      (∀ k t, i ≤ k → e.steps[k]? = some t → t.status = "pending") →
      ∀ j, statusLE ((e.steps.getD j dfltStep).status)
        (((runBatchAux ex n i e clk).1.steps.getD j dfltStep).status) = true) ∧
    (∀ (ok : Bool) (s : WorkflowStep) (clk : Nat),
      (execute_step ok s clk).1.status = if ok then "completed" else "failed") ∧
    (∀ b, statusLE "completed" b = true → b = "completed") ∧
    (∀ b, statusLE "failed" b = true → b = "failed") ∧
    (∀ b, statusLE "skipped" b = true → b = "skipped") ∧
    (∀ a, statusLE a "skipped" = true → a = "pending" ∨ a = "skipped") := by
  refine ⟨runInteractive_statusLE, runBatchAux_statusLE, execute_step_status,
    ?_, ?_, ?_, ?_⟩
  · intro b h
    simp only [statusLE, Bool.or_eq_true, Bool.and_eq_true, beq_iff_eq] at h
    rcases h with (h | ⟨h1, _⟩) | ⟨h1, _⟩
    · exact h.symm
    · simp at h1
    · simp at h1
  · intro b h
    simp only [statusLE, Bool.or_eq_true, Bool.and_eq_true, beq_iff_eq] at h
    rcases h with (h | ⟨h1, _⟩) | ⟨h1, _⟩
    · exact h.symm
    · simp at h1
    · simp at h1
  · intro b h
    simp only [statusLE, Bool.or_eq_true, Bool.and_eq_true, beq_iff_eq] at h
    rcases h with (h | ⟨h1, _⟩) | ⟨h1, _⟩
    · exact h.symm
    · simp at h1
    · simp at h1
  · intro a h
    simp only [statusLE, Bool.or_eq_true, Bool.and_eq_true, beq_iff_eq] at h
    rcases h with (h | ⟨h1, _⟩) | ⟨_, h2⟩
    · right; exact h
    · left; exact h1
    · rcases h2 with h2 | h2 <;> simp at h2

/-- Witness for C8: the batch pass from the all-pending plan of
[a, b depends-on a], and the skipped-only-from-pending fact, at concrete
inputs. -/
theorem c8_status_transitions_forward_witness :
    statusLE ((planAB.steps.getD 0 dfltStep).status)
      (((runBatchAux mockExecutor 2 0 planAB 0).1.steps.getD 0 dfltStep).status)
        = true ∧
    ("pending" = "pending" ∨ "pending" = "skipped") :=
  ⟨c8_status_transitions_forward.2.1 mockExecutor 2 0 planAB 0
    (by
      intro k t _ hkt
      cases k with
      | zero =>
        simp only [planAB, List.getElem?_cons_zero, Option.some.injEq] at hkt
        rw [← hkt]
        rfl
      | succ k1 =>
        cases k1 with
        | zero =>
          simp only [planAB, List.getElem?_cons_succ, List.getElem?_cons_zero,
            Option.some.injEq] at hkt
          rw [← hkt]
          rfl
        | succ k2 => simp [planAB] at hkt) 0,
   c8_status_transitions_forward.2.2.2.2.2.2 "pending" (by decide)⟩

theorem generate_execution_plan_shape (workflows : Catalog)
    (workflow_id : String) (plan : WorkflowExecution)
    (h : generate_execution_plan workflows workflow_id = .ok plan) :
    plan.completed_steps = 0 ∧ plan.failed_steps = 0 ∧
    plan.total_steps = plan.steps.length ∧
    ∀ s ∈ plan.steps, s.status = "pending" := by
  unfold generate_execution_plan at h
  cases hl : workflows.lookup workflow_id with
  | none => rw [hl] at h; cases h
  | some wf =>
    rw [hl] at h
    injection h with h'
    subst h'
    refine ⟨rfl, rfl, rfl, ?_⟩
    intro s hs
    obtain ⟨c, _, rfl⟩ := List.mem_map.mp hs
    rfl

theorem runBatchAux_preserves_before (ex : String → Bool) :
    ∀ (n i : Nat) (e : WorkflowExecution) (clk : Nat) (j : Nat), j < i →
      (runBatchAux ex n i e clk).1.steps[j]? = e.steps[j]? := by
  intro n
  induction n with
  | zero => intro i e clk j _; rfl
  | succ m ih =>
    intro i e clk j hj
    rw [runBatchAux_succ]
    cases hi : e.steps[i]? with
    | none => simp only [hi]
    | some s =>
      simp only [hi]
      by_cases hce : can_execute_step s e = true
      · rw [if_pos hce]
        rw [ih (i + 1) _ _ j (by omega)]
        rw [dispatchStep_steps]
        exact List.getElem?_set_ne (by omega)
      · rw [if_neg hce]
        exact ih (i + 1) e clk j (by omega)

theorem batch_aligns_interactive (ex : String → Bool) :
    ∀ (n i : Nat) (e : WorkflowExecution) (clk : Nat),
      e.total_steps = e.steps.length →
      e.completed_steps + e.failed_steps = i →
      n = e.steps.length - i →
      i ≤ e.steps.length →
      (∀ j t, j < i → e.steps[j]? = some t → t.status ≠ "pending") →
      (∀ j t, i ≤ j → e.steps[j]? = some t → t.status = "pending") →
      (∀ t ∈ (runBatchAux ex n i e clk).1.steps, t.status ≠ "pending") →
      runInteractive ex (n + 1) e clk = runBatchAux ex n i e clk := by
  intro n
  induction n with
  | zero =>
    intro i e clk htot hci hn hile _ _ _
    rw [runInteractive_succ]
    rw [if_neg (by omega)]
    rfl
  | succ m ih =>
    intro i e clk htot hci hn hile hbefore hafter hfin
    have hilt : i < e.steps.length := by omega
    have hs : e.steps[i]? = some e.steps[i] := List.getElem?_eq_getElem hilt
    have hsp : e.steps[i].status = "pending" :=
      hafter i e.steps[i] (Nat.le_refl i) hs
    by_cases hce : can_execute_step e.steps[i] e = true
    · have hstep : runBatchAux ex (m + 1) i e clk =
          runBatchAux ex m (i + 1)
            (dispatchStep ex i e.steps[i] e clk).1
            (dispatchStep ex i e.steps[i] e clk).2 := by
        rw [runBatchAux_succ]
        simp only [hs]
        rw [if_pos hce]
      rw [hstep] at hfin ⊢
      have hfind : findNext e = some (i, e.steps[i]) := by
        have hfirst := findPendingReady_first e e.steps 0 i e.steps[i] hs
          (by
            unfold pendingReady
            rw [Bool.and_eq_true, beq_iff_eq]
            exact ⟨hsp, hce⟩)
          (by
            intro k t hk hkt
            unfold pendingReady
            have hne : (t.status == "pending") = false :=
              beq_eq_false_iff_ne.mpr (hbefore k t hk hkt)
            rw [hne]
            rfl)
        unfold findNext
        rw [hfirst]
        rw [Nat.zero_add]
      have hint : runInteractive ex (m + 1 + 1) e clk =
          runInteractive ex (m + 1)
            (dispatchStep ex i e.steps[i] e clk).1
            (dispatchStep ex i e.steps[i] e clk).2 := by
        rw [runInteractive_succ]
        rw [if_pos (by omega)]
        simp only [hfind]
      rw [hint]
      have hlen1 : (dispatchStep ex i e.steps[i] e clk).1.steps.length
          = e.steps.length := by
        rw [dispatchStep_steps, List.length_set]
      have hsteps1 := dispatchStep_steps ex i e.steps[i] e clk
      apply ih (i + 1)
      · rw [dispatchStep_total, hlen1]
        exact htot
      · rw [dispatchStep_counters]
        omega
      · omega
      · omega
      · intro j t hj hjt
        by_cases hji : j = i
        · subst hji
          rw [hsteps1] at hjt
          rw [List.getElem?_set_self (by omega)] at hjt
          injection hjt with hjt'
          rw [← hjt']
          rw [execute_step_status]
          cases ex e.steps[j].step <;> simp
        · rw [hsteps1, List.getElem?_set_ne (fun hh => hji hh.symm)] at hjt
          exact hbefore j t (by omega) hjt
      · intro j t hj hjt
        rw [hsteps1, List.getElem?_set_ne (by omega)] at hjt
        exact hafter j t (by omega) hjt
      · exact hfin
    · exfalso
      have hstep : runBatchAux ex (m + 1) i e clk =
          runBatchAux ex m (i + 1) e clk := by
        rw [runBatchAux_succ]
        simp only [hs]
        rw [if_neg hce]
      rw [hstep] at hfin
      have hkeep : (runBatchAux ex m (i + 1) e clk).1.steps[i]?
          = some e.steps[i] := by
        rw [runBatchAux_preserves_before ex m (i + 1) e clk i (by omega)]
        exact hs
      exact hfin e.steps[i] (List.getElem?_mem hkeep) hsp

/-- Counterexample to claim C2 as stated: on the workflow
[b depends-on a, a] with the all-success executor, the interactive run
completes both steps while the non-interactive single pass leaves b
pending with `completed_steps` 1, so the two dispatch modes do not produce
the same final state. -/
theorem c2_modes_differ_counterexample :
    execute_workflow catalogBA "wf" true mockExecutor 0 ≠
      execute_workflow catalogBA "wf" false mockExecutor 0 ∧
    (execute_workflow catalogBA "wf" true mockExecutor 0).map
        (fun p => (p.1.steps.map (fun s => s.status), p.1.completed_steps))
      = .ok (["completed", "completed"], 2) ∧
    (execute_workflow catalogBA "wf" false mockExecutor 0).map
        (fun p => (p.1.steps.map (fun s => s.status), p.1.completed_steps))
      = .ok (["pending", "completed"], 1) := by
  refine ⟨?_, rfl, rfl⟩
  intro h
  have h2 := congrArg (Except.map
    (fun (p : WorkflowExecution × Nat) => p.1.completed_steps)) h
  have h3 : (Except.ok 2 : Except String Nat) = Except.ok 1 := h2
  injection h3 with h4
  exact absurd h4 (by omega)

/-- Claim C2 amended: the two dispatch modes need not produce the same
final state in general (the non-interactive pass can leave a step pending
whose dependency is only satisfied later in the same pass); they do
coincide — identical WorkflowExecution and clock — whenever the
non-interactive pass dispatches every step, i.e. leaves no step pending. -/
theorem c2_modes_agree_when_batch_exhaustive (workflows : Catalog)
    (workflow_id : String) (ex : String → Bool) (clk : Nat)
    (eb : WorkflowExecution) (cb : Nat)
    (hb : execute_workflow workflows workflow_id false ex clk = .ok (eb, cb))
    (hnp : ∀ t ∈ eb.steps, t.status ≠ "pending") :
    execute_workflow workflows workflow_id true ex clk = .ok (eb, cb) := by
  cases hplan : generate_execution_plan workflows workflow_id with
  | error msg =>
    rw [execute_workflow_eq, hplan] at hb
    cases hb
  | ok plan =>
    obtain ⟨hc0, hf0, htot, hpend⟩ :=
      generate_execution_plan_shape workflows workflow_id plan hplan
    obtain ⟨f1, f2, f3, f4⟩ := startedExec_fields plan clk
    rw [execute_workflow_batch_ok workflows workflow_id ex clk plan hplan] at hb
    rw [execute_workflow_interactive_ok workflows workflow_id ex clk plan hplan]
    obtain ⟨_, _, _, k4⟩ := finishExecution_keeps
      (runBatch ex (startedExec plan clk) (clk + 1)).1
      (runBatch ex (startedExec plan clk) (clk + 1)).2
    injection hb with hb'
    have hsteps_eq : (runBatch ex (startedExec plan clk) (clk + 1)).1.steps
        = eb.steps := by
      rw [← k4]
      exact congrArg (fun p => p.1.steps) hb'
    have hfin : ∀ t ∈ (runBatchAux ex (startedExec plan clk).steps.length 0
        (startedExec plan clk) (clk + 1)).1.steps, t.status ≠ "pending" := by
      intro t ht
      apply hnp
      rw [← hsteps_eq]
      exact ht
    have halign := batch_aligns_interactive ex
      (startedExec plan clk).steps.length 0 (startedExec plan clk) (clk + 1)
      (by rw [f4, f1]; exact htot)
      (by rw [f2, f3, hc0, hf0])
      (by omega)
      (by omega)
      (by intro j t hj _; exact absurd hj (by omega))
      (by
        intro j t _ hjt
        rw [f1] at hjt
        exact hpend t (List.getElem?_mem hjt))
      hfin
    have hfuel : plan.total_steps + 1 = (startedExec plan clk).steps.length + 1 := by
      rw [f1, htot]
    rw [hfuel, halign]
    exact congrArg Except.ok hb'

/-- Witness for C2 amended: on the well-ordered workflow [a, b depends-on
a], the non-interactive pass dispatches every step, and the interactive run
then yields the identical final state and clock. -/
theorem c2_modes_agree_when_batch_exhaustive_witness :
    execute_workflow catalogAB "wf" true mockExecutor 0 = .ok (bothABExec, 6) :=
  c2_modes_agree_when_batch_exhaustive catalogAB "wf" mockExecutor 0
    bothABExec 6 (by rfl) (by decide)
